import Mathlib

/-!
Shallow embedding of the `bbq` utility library (src/lib.rs and src/info.rs),
centred on the size-bounded eviction routine `remove_old_files` and the
recursive directory-size routine `get_size`.

The filesystem is modelled as a finite tree of nodes.  Path components are
byte strings (`List Nat`), matching Rust's `OsStr`, since the code's
`Path::to_str().unwrap()` behaviour depends on UTF-8 validity of the raw
bytes.  OS-call outcomes (stat succeeding, unlink succeeding) are recorded
as boolean fields on file nodes: they specify how the environment answers
the corresponding `fs::metadata` / `fs::remove_file` calls.

Both source variants are embedded separately:
 * `Lib.*`  follows src/lib.rs   (direct-children candidates, `?` on delete)
 * `Info.*` follows src/info.rs  (recursive candidates, delete errors ignored)

Rust `std::time::SystemTime` values are modelled as `Nat` (seconds since
`UNIX_EPOCH`, which is `0`).  `io::Result` together with the possibility of
a panic is modelled by `RRes`: `ok`, `err` (an `io::Error`; its payload is
irrelevant to every claim), or `panicked` (an unwinding `unwrap`).
-/

/-- Byte string: the raw bytes of one path component (Rust `OsStr`). -/
abbrev Bytes := List Nat

/-- A path relative to the eviction root: a list of components. -/
abbrev FPath := List Bytes

/-- Outcome of a Rust call: `Ok`, `Err(io::Error)`, or a panic (`unwrap`). -/
inductive RRes (α : Type) where
  | ok (a : α)
  | err
  | panicked
deriving Repr, DecidableEq

/-- Monadic bind on `RRes`, the model of Rust's `?` operator. -/
def RRes.bind {α β : Type} : RRes α → (α → RRes β) → RRes β
  | RRes.ok a, f => f a
  | RRes.err, _ => RRes.err
  | RRes.panicked, _ => RRes.panicked

/-- Metadata carried by a regular file, plus the environment's answers to
the OS calls on it: `statable` is whether `fs::metadata` succeeds on it,
`deletable` whether `fs::remove_file` succeeds on it. -/
structure FMeta where
  len : Nat
  modified : Nat
  statable : Bool
  deletable : Bool
deriving Repr, DecidableEq

/-- What kind of object a successful `fs::metadata` reports. -/
inductive FType where
  | file
  | dir
  | other
deriving Repr, DecidableEq

/-- Result of a successful stat: the fields the code reads
(`is_file`/`is_dir`, `len`, `modified`). -/
structure StatInfo where
  ftype : FType
  len : Nat
  modified : Nat
deriving Repr, DecidableEq

/-- A filesystem node.  A directory carries `statable` (does `fs::metadata`
succeed on it) and `readable` (does `fs::read_dir` succeed on it) and its
children as a name-keyed association list.  A symbolic link carries the node
it resolves to (`none` = dangling).  `other` stands for any further object
kind (socket, fifo, device); those always stat successfully and have
length 0, which no claim exercises. -/
inductive Node where
  | file (meta : FMeta)
  | dir (statable readable : Bool) (children : List (Bytes × Node))
  | symlink (target : Option Node)
  | other

/-- Follow a chain of symbolic links down to a non-link node, as the OS
does for every path-resolving call (`fs::metadata`, `fs::read_dir`).
`none` means a dangling link. -/
def resolveNode : Node → Option Node
  | Node.symlink none => none
  | Node.symlink (some t) => resolveNode t
  | n => some n

/-- The model of `fs::metadata` applied to this directory entry: follows
symlinks, fails on dangling links and on files whose stat the environment
refuses. -/
def statNode : Node → Option StatInfo
  | Node.file m => if m.statable then some ⟨FType.file, m.len, m.modified⟩ else none
  | Node.dir st _ _ => if st then some ⟨FType.dir, 0, 0⟩ else none
  | Node.symlink none => none
  | Node.symlink (some t) => statNode t
  | Node.other => some ⟨FType.other, 0, 0⟩

/-- Rust `Path::is_file` on this entry: stat (following links) succeeds and
reports a regular file. -/
def isFileNode (n : Node) : Bool :=
  match statNode n with
  | some m => m.ftype = FType.file
  | none => false

/-- Rust `Path::is_dir` on this entry: stat (following links) succeeds and
reports a directory. -/
def isDirNode (n : Node) : Bool :=
  match statNode n with
  | some m => m.ftype = FType.dir
  | none => false

/-- Rust `Path::is_symlink` on this entry: `symlink_metadata` (no follow)
reports a symbolic link. -/
def isSymlinkNode : Node → Bool
  | Node.symlink _ => true
  | _ => false

/-- Is this byte a UTF-8 continuation byte (`0x80..0xBF`)? -/
def isCont (b : Nat) : Bool := 0x80 ≤ b && b < 0xC0

/-- UTF-8 validity of a byte string, as checked by Rust's
`str::from_utf8` (hence by `OsStr::to_str`): rejects stray continuation
bytes, overlong encodings, surrogates and values above U+10FFFF. -/
def validUtf8 : List Nat → Bool
  | [] => true
  | b :: r =>
    if b < 0x80 then validUtf8 r
    else if b < 0xC2 then false
    else if b < 0xE0 then
      match r with
      | c1 :: r2 => isCont c1 && validUtf8 r2
      | [] => false
    else if b = 0xE0 then
      match r with
      | c1 :: c2 :: r2 => (0xA0 ≤ c1 && c1 < 0xC0) && isCont c2 && validUtf8 r2
      | _ => false
    else if b < 0xED then
      match r with
      | c1 :: c2 :: r2 => isCont c1 && isCont c2 && validUtf8 r2
      | _ => false
    else if b = 0xED then
      match r with
      | c1 :: c2 :: r2 => (0x80 ≤ c1 && c1 < 0xA0) && isCont c2 && validUtf8 r2
      | _ => false
    else if b < 0xF0 then
      match r with
      | c1 :: c2 :: r2 => isCont c1 && isCont c2 && validUtf8 r2
      | _ => false
    else if b = 0xF0 then
      match r with
      | c1 :: c2 :: c3 :: r2 => (0x90 ≤ c1 && c1 < 0xC0) && isCont c2 && isCont c3 && validUtf8 r2
      | _ => false
    else if b < 0xF4 then
      match r with
      | c1 :: c2 :: c3 :: r2 => isCont c1 && isCont c2 && isCont c3 && validUtf8 r2
      | _ => false
    else if b = 0xF4 then
      match r with
      | c1 :: c2 :: c3 :: r2 => (0x80 ≤ c1 && c1 < 0x90) && isCont c2 && isCont c3 && validUtf8 r2
      | _ => false
    else false

/-- Does `Path::to_str` succeed on a relative path?  The eviction root is a
Rust `&str`, hence valid UTF-8, and `/` is ASCII, so validity of the full
path is validity of each appended component. -/
def pathUtf8 (p : FPath) : Bool := p.all validUtf8

/-- First child with the given name in a directory listing (real
directories never repeat a name; the model allows it and always takes the
first, as OS lookup would). -/
def assocFind : List (Bytes × Node) → Bytes → Option Node
  | [], _ => none
  | (n, c) :: rest, name => if n = name then some c else assocFind rest name

/-- Remove the first child with the given name. -/
def eraseFirstName : List (Bytes × Node) → Bytes → List (Bytes × Node)
  | [], _ => []
  | (n, c) :: rest, name => if n = name then rest else (n, c) :: eraseFirstName rest name

/-- Replace the first child with the given name. -/
def setFirstName : List (Bytes × Node) → Bytes → Node → List (Bytes × Node)
  | [], _, _ => []
  | (n, c) :: rest, name, c2 =>
    if n = name then (n, c2) :: rest else (n, c) :: setFirstName rest name c2

/-- The model of `fs::read_dir` at the eviction root: follows a symlinked
root, succeeds only on a readable directory. -/
def readDirNode : Node → Option (List (Bytes × Node))
  | Node.dir _ true cs => some cs
  | Node.symlink (some t) => readDirNode t
  | _ => none

/-- Look up the entry at a root-relative path; intermediate components are
resolved through symlinks (as the OS does), the final component is not. -/
def lookupPath : Node → FPath → Option Node
  | n, [] => some n
  | n, name :: rest =>
    match resolveNode n with
    | some (Node.dir _ _ cs) =>
      match assocFind cs name with
      | some c => lookupPath c rest
      | none => none
    | _ => none

/-- The model of `fs::metadata` on a root-relative path (follows a final
symlink). -/
def statPath (fs : Node) (p : FPath) : Option StatInfo :=
  match lookupPath fs p with
  | some c => statNode c
  | none => none

/-- The model of `Path::is_symlink` on a root-relative path (no follow on
the final component). -/
def isSymlinkPath (fs : Node) (p : FPath) : Bool :=
  match lookupPath fs p with
  | some c => isSymlinkNode c
  | none => false

/-- Does `fs::remove_file` succeed on this directory entry?  It unlinks the
entry itself: links always unlink, files according to their `deletable`
flag, directories never (`remove_file` fails on a directory). -/
def unlinkEntry : Node → Bool
  | Node.file m => m.deletable
  | Node.symlink _ => true
  | _ => false

/-- The model of `fs::remove_file` on a direct child of the root: on
success, the new root with that child's first occurrence removed.  A
symlinked root is written through to its target. -/
def unlinkTop : Node → Bytes → Option Node
  | Node.dir st rd cs, name =>
    match assocFind cs name with
    | some c => if unlinkEntry c then some (Node.dir st rd (eraseFirstName cs name)) else none
    | none => none
  | Node.symlink (some t), name =>
    match unlinkTop t name with
    | some t2 => some (Node.symlink (some t2))
    | none => none
  | _, _ => none

/-- The model of `fs::remove_file` on a root-relative path.  Intermediate
components are traversed as plain directories; traversal of a symlinked
intermediate directory is not modelled (the well-formedness hypotheses of
the theorems that use deep paths exclude symlinks to directories, under
which the OS's link-following lookup agrees with this). -/
def unlinkPath : Node → FPath → Option Node
  | n, [name] => unlinkTop n name
  | Node.dir st rd cs, name :: rest =>
    match assocFind cs name with
    | some c =>
      match unlinkPath c rest with
      | some c2 => some (Node.dir st rd (setFirstName cs name c2))
      | none => none
    | none => none
  | _, _ => none

/-- Stat of a direct child of the root, following symlinks — the `statPath`
special case the lib.rs embedding uses. -/
def statTop (fs : Node) (name : Bytes) : Option StatInfo :=
  match readDirNode fs with
  | some cs =>
    match assocFind cs name with
    | some c => statNode c
    | none => none
  | none => none

mutual
/-- src/lib.rs `get_size`: `read_dir` the path (so it fails on anything that
is not a readable directory, including a regular file), then for each entry
`fs::metadata` (which follows symlinks), adding the length of files and the
recursive size of directories, `0` for anything else, and propagating every
error with `?`. -/
def Lib.get_size : Node → RRes Nat
  | Node.dir _ rd cs => if rd then Lib.childrenSize cs else RRes.err
  | Node.symlink (some t) => Lib.get_size t
  | _ => RRes.err

/-- The `for entry in fs::read_dir(dir)?` summation loop of lib.rs
`get_size`, one directory entry at a time. -/
def Lib.childrenSize : List (Bytes × Node) → RRes Nat
  | [] => RRes.ok 0
  | (_, c) :: rest => RRes.bind (Lib.entrySize c) fun s =>
      RRes.bind (Lib.childrenSize rest) fun r => RRes.ok (s + r)

/-- The per-entry contribution in lib.rs `get_size`: `fs::metadata(path)?`
(follows symlinks; `?` on failure), then `len` for a file, the recursive
`get_size` for a directory (recursing through `to_string_lossy`, faithful
for the UTF-8 names all theorems use), `0` otherwise. -/
def Lib.entrySize : Node → RRes Nat
  | Node.file m => if m.statable then RRes.ok m.len else RRes.err
  | Node.dir st rd cs => if st then (if rd then Lib.childrenSize cs else RRes.err) else RRes.err
  | Node.symlink (some t) => Lib.entrySize t
  | Node.symlink none => RRes.err
  | Node.other => RRes.ok 0
end

mutual
/-- src/info.rs `get_size_by_path` (and `get_size`, which merely wraps it):
`fs::metadata(path)?` (follows a symlinked root), a file's length, a
directory's recursive sum with symlink children skipped entirely, `0` for
any other object kind. -/
def Info.get_size : Node → RRes Nat
  | Node.file m => if m.statable then RRes.ok m.len else RRes.err
  | Node.dir st rd cs =>
    if st then (if rd then Info.childrenSize cs else RRes.err) else RRes.err
  | Node.symlink (some t) => Info.get_size t
  | Node.symlink none => RRes.err
  | Node.other => RRes.ok 0

/-- The child summation loop of info.rs `get_size_by_path`: entries that are
symbolic links are skipped (`continue`) before any stat of them happens. -/
def Info.childrenSize : List (Bytes × Node) → RRes Nat
  | [] => RRes.ok 0
  | (_, c) :: rest =>
    if isSymlinkNode c then Info.childrenSize rest
    else RRes.bind (Info.get_size c) fun s =>
      RRes.bind (Info.childrenSize rest) fun r => RRes.ok (s + r)
end

/-- Stable sort of candidate paths ascending by the key the source uses:
`fs::metadata(path).ok().and_then(|m| m.modified().ok()).unwrap_or(UNIX_EPOCH)`. -/
def mtKey (fs : Node) (p : FPath) : Nat :=
  match statPath fs p with
  | some m => m.modified
  | none => 0

/-- Rust `Vec::sort_by_key` on the candidate list: sort ascending by
modified time (`List.insertionSort` with the `≤` key order; the source's
tie order is irrelevant to every claim and left open by the spec). -/
def sortByMt (fs : Node) (files : List FPath) : List FPath :=
  List.insertionSort (fun p q => mtKey fs p ≤ mtKey fs q) files

/-- The eviction loop of src/lib.rs `remove_old_files`.

`files` is passed newest-first: the Rust loop repeatedly `pop`s the LAST
element of the ascending-sorted vector, so walking the reversed vector head
first is the same iteration order.  Each iteration re-checks
`dir_size > keep`; a pop is followed by `fs::metadata(&file)?` (abort on
error), the `u64` size subtraction, `push(file.to_str().unwrap()...)`
(panic on a non-UTF-8 path), and `fs::remove_file(file)?` (abort on
error).  Along with the result vector the model returns the final
filesystem and the log of performed deletions `(path, success)`. -/
def Lib.evictLoop (keep : Nat) (fs : Node) (ds : Nat) (files : List FPath)
    (rAcc : List FPath) (lAcc : List (FPath × Bool)) :
    RRes (List FPath × Node × List (FPath × Bool)) :=
  if ds > keep then
    match files with
    | [] => RRes.ok (rAcc.reverse, fs, lAcc.reverse)
    | f :: rest =>
      match statPath fs f with
      | none => RRes.err
      | some m =>
        if pathUtf8 f then
          match unlinkPath fs f with
          | some fs2 =>
            Lib.evictLoop keep fs2 (ds - m.len) rest (f :: rAcc) ((f, true) :: lAcc)
          | none => RRes.err
        else RRes.panicked
  else RRes.ok (rAcc.reverse, fs, lAcc.reverse)

/-- src/lib.rs `remove_old_files`: `get_size(dir).unwrap()` (panic if the
root cannot be measured), early `Ok(vec![])` when strictly under `keep`,
then `read_dir(dir)?`, candidates = the direct children passing
`Path::is_file()` (which follows symlinks), `sort_by_key` by modified time
ascending, and the pop-from-the-tail eviction loop. -/
def Lib.remove_old_files (fs : Node) (keep : Nat) :
    RRes (List FPath × Node × List (FPath × Bool)) :=
  match Lib.get_size fs with
  | RRes.ok ds =>
    if ds < keep then RRes.ok ([], fs, [])
    else
      match readDirNode fs with
      | none => RRes.err
      | some cs =>
        let files := (cs.filter fun e => isFileNode e.2).map fun e => [e.1]
        Lib.evictLoop keep fs ds ((sortByMt fs files).reverse) [] []
  | _ => RRes.panicked

mutual
/-- src/info.rs `get_files`: recursively collect every entry for which
`path.is_file()` holds and `path.is_symlink()` does not, recursing into
every entry for which `path.is_dir()` holds (both follow symlinks), and
treating an unreadable directory as empty (`if let Ok(entries)`). -/
def Info.get_files : Node → FPath → List FPath
  | Node.dir _ true cs, pre => Info.filesGo cs pre
  | Node.symlink (some t), pre => Info.get_files t pre
  | _, _ => []

/-- The entry loop of info.rs `get_files`, carrying the path prefix. -/
def Info.filesGo : List (Bytes × Node) → FPath → List FPath
  | [], _ => []
  | (name, c) :: rest, pre =>
    if isFileNode c then
      if isSymlinkNode c then Info.filesGo rest pre
      else (pre ++ [name]) :: Info.filesGo rest pre
    else if isDirNode c then
      Info.get_files c (pre ++ [name]) ++ Info.filesGo rest pre
    else Info.filesGo rest pre
end

/-- The eviction loop of src/info.rs `remove_old_files`.  As in
`Lib.evictLoop`, `files` is the ascending-sorted vector reversed, because
the loop `pop`s from the tail.  A popped path that `is_symlink()` is
skipped (`continue`); `fs::metadata(&file)?` aborts on error; the push of
`file.to_str().unwrap()` panics on a non-UTF-8 path and happens BEFORE the
deletion, whose failure is discarded (`let _ = fs::remove_file(..)`). -/
def Info.evictLoop (keep : Nat) (fs : Node) (ds : Nat) (files : List FPath)
    (rAcc : List FPath) (lAcc : List (FPath × Bool)) :
    RRes (List FPath × Node × List (FPath × Bool)) :=
  if ds > keep then
    match files with
    | [] => RRes.ok (rAcc.reverse, fs, lAcc.reverse)
    | f :: rest =>
      if isSymlinkPath fs f then Info.evictLoop keep fs ds rest rAcc lAcc
      else
        match statPath fs f with
        | none => RRes.err
        | some m =>
          if pathUtf8 f then
            match unlinkPath fs f with
            | some fs2 =>
              Info.evictLoop keep fs2 (ds - m.len) rest (f :: rAcc) ((f, true) :: lAcc)
            | none =>
              Info.evictLoop keep fs (ds - m.len) rest (f :: rAcc) ((f, false) :: lAcc)
          else RRes.panicked
  else RRes.ok (rAcc.reverse, fs, lAcc.reverse)

/-- src/info.rs `remove_old_files`: `get_size(dir).unwrap()` (panic if the
root cannot be measured), early `Ok(vec![])` when strictly under `keep`,
then `get_files(path)?` (recursive candidates), `retain` of the paths whose
`fs::metadata` succeeds (the retained metadata is post-follow, so its
`file_type().is_symlink()` is never true), `sort_by_key` by modified time
ascending, and the pop-from-the-tail eviction loop. -/
def Info.remove_old_files (fs : Node) (keep : Nat) :
    RRes (List FPath × Node × List (FPath × Bool)) :=
  match Info.get_size fs with
  | RRes.ok ds =>
    if ds < keep then RRes.ok ([], fs, [])
    else
      let files0 := Info.get_files fs []
      let files1 := files0.filter fun p => (statPath fs p).isSome
      Info.evictLoop keep fs ds ((sortByMt fs files1).reverse) [] []
  | _ => RRes.panicked

/-- The removed-paths component of an eviction result (`[]` off `ok`). -/
def removedOf : RRes (List FPath × Node × List (FPath × Bool)) → List FPath
  | RRes.ok (r, _, _) => r
  | _ => []

/-- The final filesystem of an eviction result (`Node.other` off `ok`). -/
def finalFsOf : RRes (List FPath × Node × List (FPath × Bool)) → Node
  | RRes.ok (_, fs, _) => fs
  | _ => Node.other

/-- The deletion log of an eviction result. -/
def logOf : RRes (List FPath × Node × List (FPath × Bool)) → List (FPath × Bool)
  | RRes.ok (_, _, l) => l
  | _ => []

/-- Did the call return `Ok`? -/
def isOk {α : Type} : RRes α → Bool
  | RRes.ok _ => true
  | _ => false

/-- Is the named direct child present under the (resolved) root? -/
def existsTop (fs : Node) (name : Bytes) : Bool :=
  match readDirNode fs with
  | some cs => (assocFind cs name).isSome
  | none => false

/-- Total byte size, per the stats taken in `fs`, of a list of paths —
"the sum of the byte sizes of the files whose paths were returned". -/
def sumSizes (fs : Node) (ps : List FPath) : Nat :=
  (ps.map fun p =>
    match statPath fs p with
    | some m => m.len
    | none => 0).sum

/-- A healthy regular file: statable and deletable. -/
def mkFile (len mtime : Nat) : Node := Node.file ⟨len, mtime, true, true⟩

/-- The spec's three-file scenario directory: `a` (100 bytes, mtime 1),
`b` (100 bytes, mtime 2), `c` (100 bytes, mtime 3); names are the ASCII
bytes of "a", "b", "c". -/
def fs3 : Node :=
  Node.dir true true [([97], mkFile 100 1), ([98], mkFile 100 2), ([99], mkFile 100 3)]

/-- `fs3` after `c` and `b` have been removed. -/
def fs3After : Node := Node.dir true true [([97], mkFile 100 1)]

/-- Directory whose oldest file `a` (mtime 1) cannot be deleted
(permission denied at unlink) while the newer `b` (mtime 2) can. -/
def fsUndel : Node :=
  Node.dir true true
    [([97], Node.file ⟨100, 1, true, false⟩), ([98], mkFile 100 2)]

/-- Directory whose NEWEST file `z` (mtime 9) cannot be deleted while the
older `a` (mtime 1) can — so the loop hits the failure first and has a
later candidate left to continue with. -/
def fsUndelNew : Node :=
  Node.dir true true
    [([97], mkFile 100 1), ([122], Node.file ⟨100, 9, true, false⟩)]

/-- Directory with a single 100-byte file `f` that cannot be deleted. -/
def fsOneUndel : Node := Node.dir true true [([102], Node.file ⟨100, 1, true, false⟩)]

/-- Directory containing only a symbolic link `s` to a 100-byte regular
file (the target lives outside the directory). -/
def fsSym : Node :=
  Node.dir true true [([115], Node.symlink (some (mkFile 100 5)))]

/-- Directory with a single regular file whose name is the lone byte
`0xFF` — not valid UTF-8. -/
def fsBadName : Node := Node.dir true true [([255], mkFile 100 1)]

/-- Directory with one 100-byte file — the no-op-at-budget witness input. -/
def fsOne : Node := Node.dir true true [([97], mkFile 100 1)]

/-- An eviction root that can be neither stat'ed nor read (for example it
was deleted before the call). -/
def fsBadRoot : Node := Node.dir false false []

/-- C1: the claim says the returned removal sequence lists strictly
INCREASING modification timestamps (oldest removed first).  The code sorts
ascending by mtime and then `Vec::pop`s from the TAIL, so it deletes the
newest files first: on the three-file directory with distinct mtimes
1, 2, 3 both variants return the paths `[c, b]`, whose mtimes 3, 2 are
strictly DECREASING.  This contradicts the functions' own doc comment
("the oldest files will be removed") and their very name. -/
theorem c1_code_removes_newest_first :
    removedOf (Lib.remove_old_files fs3 150) = [[[99]], [[98]]] ∧
    removedOf (Info.remove_old_files fs3 150) = [[[99]], [[98]]] ∧
    mtKey fs3 [[99]] = 3 ∧ mtKey fs3 [[98]] = 2 ∧ ¬ (3 : Nat) < 2 :=
  ⟨rfl, rfl, rfl, rfl, by decide⟩

/-- C2: the claim (and the spec's scenario) says `remove_old_files(d, 150)`
on `a` (100 B, mtime 1), `b` (100 B, mtime 2), `c` (100 B, mtime 3) deletes
`a` then `b` and returns `[a, b]`, leaving `c`.  The code does the
opposite: both variants delete `c` then `b`, return `[c, b]`, and leave
`a`, again contradicting the functions' own "oldest files" doc comment. -/
theorem c2_scenario_code_result :
    Lib.remove_old_files fs3 150 =
      RRes.ok ([[[99]], [[98]]], fs3After, [([[99]], true), ([[98]], true)]) ∧
    Info.remove_old_files fs3 150 =
      RRes.ok ([[[99]], [[98]]], fs3After, [([[99]], true), ([[98]], true)]) ∧
    existsTop fs3After [97] = true ∧ existsTop fs3After [99] = false :=
  ⟨rfl, rfl, rfl, rfl⟩

/-- C3: the claim says a failure to measure the eviction root is surfaced
as the function's error result and the function does not crash.  Both
variants instead call `get_size(dir).unwrap()`: `get_size` duly returns an
`Err` (last two conjuncts), and `remove_old_files` panics on it (first two
conjuncts) — contradicting the function's `io::Result` signature and its
doc comment ("If an error occurred, it will contain the error"), while
every other fallible call in the same function uses `?`. -/
theorem c3_root_stat_failure_panics :
    Lib.remove_old_files fsBadRoot 10 = RRes.panicked ∧
    Info.remove_old_files fsBadRoot 10 = RRes.panicked ∧
    Lib.get_size fsBadRoot = RRes.err ∧
    Info.get_size fsBadRoot = RRes.err :=
  ⟨rfl, rfl, rfl, rfl⟩

/-- C4 counterexample: the claim says that when a selected candidate cannot
be deleted the routine skips it, keeps going, and returns normally with the
successfully removed paths.  On a directory whose file `a` cannot be
unlinked, the lib.rs variant aborts with the error (`remove_file(file)?`)
— no normal return — and the info.rs variant does return normally but
lists `a` among the removed paths even though `a` is still present. -/
theorem c4_counterexample :
    Lib.remove_old_files fsUndel 0 = RRes.err ∧
    removedOf (Info.remove_old_files fsUndel 0) = [[[98]], [[97]]] ∧
    existsTop (finalFsOf (Info.remove_old_files fsUndel 0)) [97] = true :=
  ⟨rfl, rfl, rfl⟩

/-- C4 as amended: if a selected candidate file cannot be deleted, the
lib.rs variant aborts with the error, discarding the partial result; the
info.rs variant ignores the failure and continues deleting subsequent
candidates, but the failed path is still included in the returned sequence
(the result lists attempted, not successful, deletions).  Here the newest
file `z` is undeletable: info.rs logs the failed attempt on `z`, proceeds
to delete the older `a`, and returns `[z, a]` with `z` still on disk,
while lib.rs returns an error having deleted nothing. -/
theorem c4_amended :
    Info.remove_old_files fsUndelNew 0 =
      RRes.ok ([[[122]], [[97]]],
        Node.dir true true [([122], Node.file ⟨100, 9, true, false⟩)],
        [([[122]], false), ([[97]], true)]) ∧
    Lib.remove_old_files fsUndelNew 0 = RRes.err :=
  ⟨rfl, rfl⟩

/-- C5 counterexample: the claim says symlinks contribute zero to
`get_size` and never appear in the eviction result.  lib.rs's `get_size`
stats entries with `fs::metadata`, which FOLLOWS symlinks: a directory
containing only a symlink to a 100-byte file is reported as size 100, not
0, and lib.rs's `remove_old_files` (whose `Path::is_file()` filter also
follows links) returns the symlink's path. -/
theorem c5_counterexample :
    Lib.get_size fsSym = RRes.ok 100 ∧
    Lib.get_size fsSym ≠ RRes.ok 0 ∧
    removedOf (Lib.remove_old_files fsSym 50) = [[[115]]] :=
  ⟨rfl, by decide, rfl⟩

/-- C5 as amended: the claim holds for the info.rs variant only —
`get_size_by_path` skips symlink children entirely (the symlink-only
directory is reported as size 0) and its eviction never lists a symlink
(here it deletes nothing at every threshold, including 0).  The lib.rs
variant follows symlinks in both `get_size` and the candidate filter. -/
theorem c5_amended :
    Info.get_size fsSym = RRes.ok 0 ∧
    ∀ keep : Nat, Info.remove_old_files fsSym keep = RRes.ok ([], fsSym, []) :=
  ⟨rfl, fun keep => by
    cases keep with
    | zero => rfl
    | succ n => exact if_pos (Nat.succ_pos n)⟩

/-- C6 counterexample: the claim says that after a successful call the
recomputed size equals the old size minus the sum of the sizes of the
returned paths.  In the info.rs variant a failed deletion is ignored but
its path is still returned: on a directory with a single undeletable
100-byte file and `keep = 50`, the call succeeds returning that file, the
filesystem is unchanged, and the recomputed size is 100, not
100 - 100 = 0. -/
theorem c6_counterexample :
    isOk (Info.remove_old_files fsOneUndel 50) = true ∧
    removedOf (Info.remove_old_files fsOneUndel 50) = [[[102]]] ∧
    finalFsOf (Info.remove_old_files fsOneUndel 50) = fsOneUndel ∧
    Info.get_size fsOneUndel = RRes.ok 100 ∧
    sumSizes fsOneUndel [[[102]]] = 100 ∧
    Info.get_size (finalFsOf (Info.remove_old_files fsOneUndel 50)) ≠
      RRes.ok (100 - sumSizes fsOneUndel (removedOf (Info.remove_old_files fsOneUndel 50))) :=
  ⟨rfl, rfl, rfl, rfl, rfl, by decide⟩

/-- C8 counterexample: the claim says `get_size` on a path naming a regular
file returns its byte length.  lib.rs's `get_size` starts with
`fs::read_dir(dir)?`, which fails on a regular file, so on a 7-byte file
it returns an error rather than 7. -/
theorem c8_counterexample :
    Lib.get_size (Node.file ⟨7, 0, true, true⟩) = RRes.err ∧
    Lib.get_size (Node.file ⟨7, 0, true, true⟩) ≠ RRes.ok 7 :=
  ⟨rfl, by decide⟩

/-- C8 as amended: the stated contract holds for the info.rs variant
(`get_size` via `get_size_by_path`): a statable regular file's byte length
is returned, and an un-statable root fails with an IO error; the lib.rs
variant instead fails with an IO error on ANY root that is not a readable
directory, including every regular file. -/
theorem c8_amended (m : FMeta) :
    (m.statable = true → Info.get_size (Node.file m) = RRes.ok m.len) ∧
    (m.statable = false → Info.get_size (Node.file m) = RRes.err) ∧
    Lib.get_size (Node.file m) = RRes.err := by
  refine ⟨fun h => ?_, fun h => ?_, rfl⟩ <;> simp [Info.get_size, h]

/-- C8 amended, witness: the amended statement applied to a statable 7-byte
file and to an un-statable one. -/
theorem c8_amended_witness :
    Info.get_size (Node.file ⟨7, 0, true, true⟩) = RRes.ok 7 ∧
    Info.get_size (Node.file ⟨7, 0, false, true⟩) = RRes.err :=
  ⟨(c8_amended ⟨7, 0, true, true⟩).1 rfl, (c8_amended ⟨7, 0, false, true⟩).2.1 rfl⟩

/-- C10: the code assumes candidate file names are valid UTF-8: on a
directory whose only (100-byte, perfectly deletable) file is named by the
single byte `0xFF` — not valid UTF-8 — both variants reach
`file.to_str().unwrap()` while pushing the removed path and panic instead
of returning an error value. -/
theorem c10_nonutf8_name_panics :
    Lib.remove_old_files fsBadName 50 = RRes.panicked ∧
    Info.remove_old_files fsBadName 50 = RRes.panicked ∧
    validUtf8 [255] = false ∧
    Lib.get_size fsBadName = RRes.ok 100 :=
  ⟨rfl, rfl, rfl, rfl⟩

/-- A successful lib.rs `get_size` implies the root re-reads as a directory
listing: `read_dir` in `remove_old_files` cannot then fail. -/
theorem readDir_of_size : ∀ (fs : Node) (S : Nat),
    Lib.get_size fs = RRes.ok S → ∃ cs, readDirNode fs = some cs
  | Node.dir _ true cs, _, _ => ⟨cs, rfl⟩
  | Node.dir _ false _, _, h => nomatch h
  | Node.symlink (some t), S, h => readDir_of_size t S h
  | Node.symlink none, _, h => nomatch h
  | Node.file _, _, h => nomatch h
  | Node.other, _, h => nomatch h

/-- An entry that stats as a regular file contributes exactly its stat
length to lib.rs `get_size`. -/
theorem entrySize_of_file : ∀ (c : Node) (m : StatInfo),
    statNode c = some m → m.ftype = FType.file → Lib.entrySize c = RRes.ok m.len
  | Node.file fm, m, h, _ => by
    by_cases hst : fm.statable
    · simp [statNode, hst] at h
      simp [Lib.entrySize, hst, ← h]
    · simp [statNode, hst] at h
  | Node.dir st rd cs, m, h, hf => by
    by_cases hst : st
    · simp [statNode, hst] at h
      rw [← h] at hf
      simp at hf
    · simp [statNode, hst] at h
  | Node.symlink (some t), m, h, hf => entrySize_of_file t m h hf
  | Node.symlink none, m, h, _ => by simp [statNode] at h
  | Node.other, m, h, hf => by
    simp [statNode] at h
    rw [← h] at hf
    simp at hf

/-- Erasing one name leaves lookups of every other name unchanged. -/
theorem assocFind_erase_ne (cs : List (Bytes × Node)) (name name2 : Bytes)
    (h : name2 ≠ name) : assocFind (eraseFirstName cs name) name2 = assocFind cs name2 := by
  induction cs with
  | nil => rfl
  | cons e rest ih =>
    obtain ⟨n, c⟩ := e
    by_cases hn : n = name
    · subst hn
      simp [eraseFirstName, assocFind, Ne.symm h]
    · by_cases hn2 : n = name2
      · subst hn2
        simp [eraseFirstName, hn, assocFind]
      · simp [eraseFirstName, hn, assocFind, hn2, ih]

/-- Erasing the first occurrence of a name yields a sublist. -/
theorem eraseFirstName_sublist (cs : List (Bytes × Node)) (name : Bytes) :
    (eraseFirstName cs name).Sublist cs := by
  induction cs with
  | nil => simp [eraseFirstName]
  | cons e rest ih =>
    obtain ⟨n, c⟩ := e
    by_cases hn : n = name
    · simp [eraseFirstName, hn]
    · simpa [eraseFirstName, hn] using ih

/-- Under distinct child names, membership determines the lookup result. -/
theorem assocFind_of_mem_nodup (cs : List (Bytes × Node)) (name : Bytes) (c : Node)
    (hnd : (cs.map Prod.fst).Nodup) (hmem : (name, c) ∈ cs) :
    assocFind cs name = some c := by
  induction cs with
  | nil => simp at hmem
  | cons e rest ih =>
    obtain ⟨n, c0⟩ := e
    simp only [List.map_cons, List.nodup_cons] at hnd
    rcases List.mem_cons.mp hmem with heq | hmem2
    · injection heq with h1 h2
      subst h1; subst h2
      simp [assocFind]
    · have hne : n ≠ name := by
        intro hEq
        subst hEq
        exact hnd.1 (List.mem_map.mpr ⟨(n, c), hmem2, rfl⟩)
      simp [assocFind, hne, ih hnd.2 hmem2]

/-- When `dir_size` is already at or under `keep`, the lib.rs loop exits
before popping anything, whatever the candidate list. -/
theorem Lib.evictLoop_exit (keep : Nat) (fs : Node) (ds : Nat) (files : List FPath)
    (rAcc : List FPath) (lAcc : List (FPath × Bool)) (h : ¬ ds > keep) :
    Lib.evictLoop keep fs ds files rAcc lAcc = RRes.ok (rAcc.reverse, fs, lAcc.reverse) := by
  cases files <;> simp [Lib.evictLoop, h]

/-- When `dir_size` is already at or under `keep`, the info.rs loop exits
before popping anything, whatever the candidate list. -/
theorem Info.evictLoop_halt (keep : Nat) (fs : Node) (ds : Nat) (files : List FPath)
    (rAcc : List FPath) (lAcc : List (FPath × Bool)) (h : ¬ ds > keep) :
    Info.evictLoop keep fs ds files rAcc lAcc = RRes.ok (rAcc.reverse, fs, lAcc.reverse) := by
  cases files <;> simp [Info.evictLoop, h]

/-- C7: for any eviction root whose measured size `S` satisfies
`S ≤ keep` — covering both the strictly-under case and the exactly-equal
case — both variants of `remove_old_files` return the empty sequence,
leave the filesystem untouched and attempt no deletion: under strict
inequality via the early `return Ok(vec![])`, at equality because the
`while dir_size > keep` loop exits before its first pop. -/
theorem c7_noop_at_or_under_budget (fs : Node) (keep S : Nat) :
    (Lib.get_size fs = RRes.ok S → S ≤ keep →
      Lib.remove_old_files fs keep = RRes.ok ([], fs, [])) ∧
    (Info.get_size fs = RRes.ok S → S ≤ keep →
      Info.remove_old_files fs keep = RRes.ok ([], fs, [])) := by
  constructor
  · intro h hle
    by_cases hlt : S < keep
    · simp [Lib.remove_old_files, h, hlt]
    · obtain ⟨cs, hcs⟩ := readDir_of_size fs S h
      have hng : ¬ S > keep := by omega
      simp [Lib.remove_old_files, h, hlt, hcs, Lib.evictLoop_exit _ _ _ _ _ _ hng]
  · intro h hle
    by_cases hlt : S < keep
    · simp [Info.remove_old_files, h, hlt]
    · have hng : ¬ S > keep := by omega
      simp [Info.remove_old_files, h, hlt, Info.evictLoop_halt _ _ _ _ _ _ hng]

/-- C7, witness: the theorem applied to a one-file directory of size 100
with `keep = 100` (the exactly-at-budget case). -/
theorem c7_noop_witness :
    Lib.remove_old_files fsOne 100 = RRes.ok ([], fsOne, []) ∧
    Info.remove_old_files fsOne 100 = RRes.ok ([], fsOne, []) :=
  ⟨(c7_noop_at_or_under_budget fsOne 100 100).1 rfl (by decide),
   (c7_noop_at_or_under_budget fsOne 100 100).2 rfl (by decide)⟩

/-- Invariant of the lib.rs eviction loop: the removed-paths vector is
exactly the first projection of the deletion log, and every logged
deletion succeeded (a failed `remove_file` aborts the whole call). -/
theorem Lib.evictLoop_log (keep : Nat) :
    ∀ (files : List FPath) (fs : Node) (ds : Nat) (rAcc : List FPath)
      (lAcc : List (FPath × Bool)) (removed : List FPath) (fs2 : Node)
      (log : List (FPath × Bool)),
    Lib.evictLoop keep fs ds files rAcc lAcc = RRes.ok (removed, fs2, log) →
    rAcc = lAcc.map Prod.fst →
    (∀ e ∈ lAcc, e.2 = true) →
    removed = log.map Prod.fst ∧ ∀ e ∈ log, e.2 = true := by
  intro files
  induction files with
  | nil =>
    intro fs ds rAcc lAcc removed fs2 log hcall hacc hall
    have hx : Lib.evictLoop keep fs ds [] rAcc lAcc =
        RRes.ok (rAcc.reverse, fs, lAcc.reverse) := by
      by_cases hgt : ds > keep <;> simp [Lib.evictLoop, hgt]
    rw [hx] at hcall
    simp only [RRes.ok.injEq, Prod.mk.injEq] at hcall
    obtain ⟨h1, _, h3⟩ := hcall
    subst h1; subst h3
    refine ⟨by rw [hacc, List.map_reverse], fun e he => hall e (List.mem_reverse.mp he)⟩
  | cons f rest ih =>
    intro fs ds rAcc lAcc removed fs2 log hcall hacc hall
    by_cases hgt : ds > keep
    · simp only [Lib.evictLoop, if_pos hgt] at hcall
      cases hstat : statPath fs f with
      | none => rw [hstat] at hcall; simp at hcall
      | some m =>
        rw [hstat] at hcall
        dsimp only at hcall
        by_cases hu : pathUtf8 f
        · rw [if_pos hu] at hcall
          cases hul : unlinkPath fs f with
          | none => rw [hul] at hcall; simp at hcall
          | some fs3 =>
            rw [hul] at hcall
            refine ih fs3 (ds - m.len) (f :: rAcc) ((f, true) :: lAcc)
              removed fs2 log hcall (by simp [hacc]) ?_
            intro e he
            rcases List.mem_cons.mp he with h | h
            · rw [h]
            · exact hall e h
        · rw [if_neg hu] at hcall; simp at hcall
    · rw [Lib.evictLoop_exit keep fs ds (f :: rest) rAcc lAcc hgt] at hcall
      simp only [RRes.ok.injEq, Prod.mk.injEq] at hcall
      obtain ⟨h1, _, h3⟩ := hcall
      subst h1; subst h3
      refine ⟨by rw [hacc, List.map_reverse], fun e he => hall e (List.mem_reverse.mp he)⟩

/-- Invariant of the info.rs eviction loop: the removed-paths vector is
exactly the first projection of the deletion-attempt log (failed attempts
are logged `false` but still reported). -/
theorem Info.evictLoop_attempts (keep : Nat) :
    ∀ (files : List FPath) (fs : Node) (ds : Nat) (rAcc : List FPath)
      (lAcc : List (FPath × Bool)) (removed : List FPath) (fs2 : Node)
      (log : List (FPath × Bool)),
    Info.evictLoop keep fs ds files rAcc lAcc = RRes.ok (removed, fs2, log) →
    rAcc = lAcc.map Prod.fst →
    removed = log.map Prod.fst := by
  intro files
  induction files with
  | nil =>
    intro fs ds rAcc lAcc removed fs2 log hcall hacc
    have hx : Info.evictLoop keep fs ds [] rAcc lAcc =
        RRes.ok (rAcc.reverse, fs, lAcc.reverse) := by
      by_cases hgt : ds > keep <;> simp [Info.evictLoop, hgt]
    rw [hx] at hcall
    simp only [RRes.ok.injEq, Prod.mk.injEq] at hcall
    obtain ⟨h1, _, h3⟩ := hcall
    subst h1; subst h3
    rw [hacc, List.map_reverse]
  | cons f rest ih =>
    intro fs ds rAcc lAcc removed fs2 log hcall hacc
    by_cases hgt : ds > keep
    · simp only [Info.evictLoop, if_pos hgt] at hcall
      by_cases hsym : isSymlinkPath fs f
      · rw [if_pos hsym] at hcall
        exact ih fs ds rAcc lAcc removed fs2 log hcall hacc
      · rw [if_neg hsym] at hcall
        cases hstat : statPath fs f with
        | none => rw [hstat] at hcall; simp at hcall
        | some m =>
          rw [hstat] at hcall
          dsimp only at hcall
          by_cases hu : pathUtf8 f
          · rw [if_pos hu] at hcall
            cases hul : unlinkPath fs f with
            | none =>
              rw [hul] at hcall
              exact ih _ _ _ _ removed fs2 log hcall (by simp [hacc])
            | some fs3 =>
              rw [hul] at hcall
              exact ih _ _ _ _ removed fs2 log hcall (by simp [hacc])
          · rw [if_neg hu] at hcall; simp at hcall
    · rw [Info.evictLoop_halt keep fs ds (f :: rest) rAcc lAcc hgt] at hcall
      simp only [RRes.ok.injEq, Prod.mk.injEq] at hcall
      obtain ⟨h1, _, h3⟩ := hcall
      subst h1; subst h3
      rw [hacc, List.map_reverse]

/-- C9: on every successful call, the returned sequence is exactly (and in
order) the set of paths on which the loop performed a deletion call: in the
lib.rs variant every logged deletion also succeeded (a failure aborts the
call instead of producing a result), matching the claim's strict reading;
in the info.rs variant the result equals the attempted deletions, matching
the claim's lenient parenthetical.  No path is reported without its
deletion having been performed or attempted, and no attempted deletion is
omitted from the result. -/
theorem c9_result_iff_attempted (fs : Node) (keep : Nat) (removed : List FPath)
    (fs2 : Node) (log : List (FPath × Bool)) :
    (Lib.remove_old_files fs keep = RRes.ok (removed, fs2, log) →
      removed = log.map Prod.fst ∧ ∀ e ∈ log, e.2 = true) ∧
    (Info.remove_old_files fs keep = RRes.ok (removed, fs2, log) →
      removed = log.map Prod.fst) := by
  constructor
  · intro hcall
    cases hgs : Lib.get_size fs with
    | ok ds =>
      simp only [Lib.remove_old_files, hgs] at hcall
      by_cases hlt : ds < keep
      · rw [if_pos hlt] at hcall
        simp only [RRes.ok.injEq, Prod.mk.injEq] at hcall
        obtain ⟨h1, _, h3⟩ := hcall
        subst h1; subst h3
        exact ⟨rfl, by simp⟩
      · rw [if_neg hlt] at hcall
        cases hrd : readDirNode fs with
        | none => rw [hrd] at hcall; simp at hcall
        | some cs =>
          rw [hrd] at hcall
          exact Lib.evictLoop_log keep _ _ _ _ _ _ _ _ hcall rfl (by simp)
    | err => simp [Lib.remove_old_files, hgs] at hcall
    | panicked => simp [Lib.remove_old_files, hgs] at hcall
  · intro hcall
    cases hgs : Info.get_size fs with
    | ok ds =>
      simp only [Info.remove_old_files, hgs] at hcall
      by_cases hlt : ds < keep
      · rw [if_pos hlt] at hcall
        simp only [RRes.ok.injEq, Prod.mk.injEq] at hcall
        obtain ⟨h1, _, h3⟩ := hcall
        subst h1; subst h3
        rfl
      · rw [if_neg hlt] at hcall
        exact Info.evictLoop_attempts keep _ _ _ _ _ _ _ _ hcall rfl
    | err => simp [Info.remove_old_files, hgs] at hcall
    | panicked => simp [Info.remove_old_files, hgs] at hcall

/-- C9, witness: the theorem applied to the three-file scenario directory,
where both variants return `[c, b]` with a log of two successful
deletions. -/
theorem c9_result_iff_attempted_witness :
    (([[[99]], [[98]]] : List FPath) =
      ([([[99]], true), ([[98]], true)] : List (FPath × Bool)).map Prod.fst ∧
      ∀ e ∈ ([([[99]], true), ([[98]], true)] : List (FPath × Bool)), e.2 = true) ∧
    (([[[99]], [[98]]] : List FPath) =
      ([([[99]], true), ([[98]], true)] : List (FPath × Bool)).map Prod.fst) :=
  ⟨(c9_result_iff_attempted fs3 150 [[[99]], [[98]]] fs3After
      [([[99]], true), ([[98]], true)]).1 rfl,
   (c9_result_iff_attempted fs3 150 [[[99]], [[98]]] fs3After
      [([[99]], true), ([[98]], true)]).2 rfl⟩

/-- Stat of a single-component path in a readable directory is the stat of
the looked-up child. -/
theorem statPath_single (st rd : Bool) (cs : List (Bytes × Node)) (name : Bytes)
    (c : Node) (hfind : assocFind cs name = some c) :
    statPath (Node.dir st rd cs) [name] = statNode c := by
  simp [statPath, lookupPath, resolveNode, hfind]

/-- Unlinking a single-component path in a directory erases the child when
the entry can be unlinked. -/
theorem unlinkPath_single (st rd : Bool) (cs : List (Bytes × Node)) (name : Bytes)
    (c : Node) (hfind : assocFind cs name = some c) (hdel : unlinkEntry c = true) :
    unlinkPath (Node.dir st rd cs) [name] =
      some (Node.dir st rd (eraseFirstName cs name)) := by
  simp [unlinkPath, unlinkTop, hfind, hdel]

/-- `Path::is_file` holds exactly when the stat (following links) succeeds
and reports a regular file. -/
theorem isFileNode_iff (n : Node) :
    isFileNode n = true ↔ ∃ m, statNode n = some m ∧ m.ftype = FType.file := by
  unfold isFileNode
  cases h : statNode n <;> simp

/-- The empty path list has total size zero. -/
theorem sumSizes_nil (fs : Node) : sumSizes fs [] = 0 := rfl

/-- Splitting the total size of a path list at its head. -/
theorem sumSizes_cons (fs : Node) (p : FPath) (ps : List FPath) :
    sumSizes fs (p :: ps) =
      (match statPath fs p with
       | some m => m.len
       | none => 0) + sumSizes fs ps := by
  simp [sumSizes]

/-- Two filesystems that stat a list of paths identically assign it the
same total size. -/
theorem sumSizes_congr (fsA fsB : Node) (ps : List FPath)
    (h : ∀ p ∈ ps, statPath fsA p = statPath fsB p) :
    sumSizes fsA ps = sumSizes fsB ps := by
  induction ps with
  | nil => rfl
  | cons p ps ih =>
    rw [sumSizes_cons, sumSizes_cons, h p (List.mem_cons_self p ps),
      ih fun q hq => h q (List.mem_cons_of_mem p hq)]

/-- Removing a child that stats as a regular file lowers the lib.rs
directory sum by exactly its stat length (which it cannot exceed). -/
theorem childrenSize_erase :
    ∀ (cs : List (Bytes × Node)) (name : Bytes) (c : Node) (m : StatInfo) (S : Nat),
    Lib.childrenSize cs = RRes.ok S →
    assocFind cs name = some c →
    statNode c = some m → m.ftype = FType.file →
    Lib.childrenSize (eraseFirstName cs name) = RRes.ok (S - m.len) ∧ m.len ≤ S := by
  intro cs
  induction cs with
  | nil =>
    intro name c m S hcs hfind hstat hfile
    simp [assocFind] at hfind
  | cons e rest ih =>
    obtain ⟨n, c0⟩ := e
    intro name c m S hcs hfind hstat hfile
    simp only [Lib.childrenSize] at hcs
    cases h1 : Lib.entrySize c0 with
    | err => rw [h1] at hcs; simp [RRes.bind] at hcs
    | panicked => rw [h1] at hcs; simp [RRes.bind] at hcs
    | ok s =>
      rw [h1] at hcs
      cases h2 : Lib.childrenSize rest with
      | err => rw [h2] at hcs; simp [RRes.bind] at hcs
      | panicked => rw [h2] at hcs; simp [RRes.bind] at hcs
      | ok r =>
        rw [h2] at hcs
        simp only [RRes.bind, RRes.ok.injEq] at hcs
        by_cases hn : n = name
        · subst hn
          have hc0 : c0 = c := by simpa [assocFind] using hfind
          have hs : RRes.ok s = RRes.ok m.len := by
            rw [← h1, hc0]
            exact entrySize_of_file c m hstat hfile
          injection hs with hs
          subst hs
          constructor
          · have he : eraseFirstName ((n, c0) :: rest) n = rest := by
              simp [eraseFirstName]
            rw [he, h2]
            congr 1
            omega
          · omega
        · simp only [assocFind, if_neg hn] at hfind
          obtain ⟨hrec, hle⟩ := ih name c m r h2 hfind hstat hfile
          constructor
          · simp only [eraseFirstName, if_neg hn, Lib.childrenSize, h1, hrec, RRes.bind,
              RRes.ok.injEq]
            omega
          · omega

/-- A candidate path as produced by the lib.rs scan: a single component
naming a direct child that stats as a regular file. -/
def goodTop (cs : List (Bytes × Node)) (p : FPath) : Prop :=
  ∃ name c m, p = [name] ∧ assocFind cs name = some c ∧
    statNode c = some m ∧ m.ftype = FType.file

/-- Size invariant of the lib.rs eviction loop over a readable directory
root with distinct candidate paths that all name file children: on a
successful exit the loop has removed some subset `newR` of its candidate
list, and the remaining directory sum is the starting sum minus the total
stat size of `newR` (which it cannot exceed). -/
theorem Lib.evictLoop_size (keep : Nat) :
    ∀ (files : List FPath) (st : Bool) (cs : List (Bytes × Node)) (ds : Nat)
      (rAcc : List FPath) (lAcc : List (FPath × Bool)) (removed : List FPath)
      (fs2 : Node) (log : List (FPath × Bool)),
    Lib.evictLoop keep (Node.dir st true cs) ds files rAcc lAcc =
      RRes.ok (removed, fs2, log) →
    Lib.childrenSize cs = RRes.ok ds →
    (∀ p ∈ files, goodTop cs p) →
    files.Nodup →
    ∃ newR, removed = rAcc.reverse ++ newR ∧ (∀ p ∈ newR, p ∈ files) ∧
      Lib.get_size fs2 = RRes.ok (ds - sumSizes (Node.dir st true cs) newR) ∧
      sumSizes (Node.dir st true cs) newR ≤ ds := by
  intro files
  induction files with
  | nil =>
    intro st cs ds rAcc lAcc removed fs2 log hcall hch hgood hnd
    have hx : Lib.evictLoop keep (Node.dir st true cs) ds [] rAcc lAcc =
        RRes.ok (rAcc.reverse, Node.dir st true cs, lAcc.reverse) := by
      by_cases hgt : ds > keep <;> simp [Lib.evictLoop, hgt]
    rw [hx] at hcall
    simp only [RRes.ok.injEq, Prod.mk.injEq] at hcall
    obtain ⟨h1, h2, _⟩ := hcall
    subst h1; subst h2
    refine ⟨[], by simp, by simp, ?_, by simp [sumSizes_nil]⟩
    simp [sumSizes_nil, Lib.get_size, hch]
  | cons f rest ih =>
    intro st cs ds rAcc lAcc removed fs2 log hcall hch hgood hnd
    by_cases hgt : ds > keep
    · obtain ⟨name, c, m, hp, hfind, hstat, hfile⟩ := hgood f (List.mem_cons_self f rest)
      subst hp
      have hsp : statPath (Node.dir st true cs) [name] = some m := by
        rw [statPath_single st true cs name c hfind, hstat]
      simp only [Lib.evictLoop, if_pos hgt] at hcall
      rw [hsp] at hcall
      dsimp only at hcall
      by_cases hu : pathUtf8 [name]
      · rw [if_pos hu] at hcall
        by_cases hdel : unlinkEntry c
        · rw [unlinkPath_single st true cs name c hfind hdel] at hcall
          obtain ⟨hch2, hlen⟩ := childrenSize_erase cs name c m ds hch hfind hstat hfile
          have hnot : [name] ∉ rest := (List.nodup_cons.mp hnd).1
          have hgood2 : ∀ p ∈ rest, goodTop (eraseFirstName cs name) p := by
            intro p hmem
            obtain ⟨name2, c2, m2, hp2, hfind2, hstat2, hfile2⟩ :=
              hgood p (List.mem_cons_of_mem _ hmem)
            have hne : name2 ≠ name := by
              intro hEq
              subst hEq
              rw [hp2] at hmem
              exact hnot hmem
            exact ⟨name2, c2, m2, hp2,
              (assocFind_erase_ne cs name name2 hne).trans hfind2, hstat2, hfile2⟩
          obtain ⟨newR, hR, hsub, hgs, hle⟩ :=
            ih st (eraseFirstName cs name) (ds - m.len) ([name] :: rAcc)
              (([name], true) :: lAcc) removed fs2 log hcall hch2 hgood2
              (List.nodup_cons.mp hnd).2
          have hstat_pres : ∀ p ∈ newR,
              statPath (Node.dir st true (eraseFirstName cs name)) p =
                statPath (Node.dir st true cs) p := by
            intro p hmem
            obtain ⟨name2, c2, m2, hp2, hfind2, hstat2, hfile2⟩ :=
              hgood p (List.mem_cons_of_mem _ (hsub p hmem))
            have hne : name2 ≠ name := by
              intro hEq
              subst hEq
              rw [hp2] at hmem
              exact hnot (hsub _ hmem)
            rw [hp2, statPath_single st true _ name2 c2
                ((assocFind_erase_ne cs name name2 hne).trans hfind2),
              statPath_single st true cs name2 c2 hfind2]
          have hsum_eq : sumSizes (Node.dir st true (eraseFirstName cs name)) newR =
              sumSizes (Node.dir st true cs) newR :=
            sumSizes_congr _ _ newR hstat_pres
          refine ⟨[name] :: newR, ?_, ?_, ?_, ?_⟩
          · rw [hR]
            simp
          · intro p hmem
            rcases List.mem_cons.mp hmem with h | h
            · rw [h]; exact List.mem_cons_self _ _
            · exact List.mem_cons_of_mem _ (hsub p h)
          · rw [sumSizes_cons, hsp]
            dsimp only
            rw [hgs, hsum_eq, Nat.sub_sub]
          · have hle2 : sumSizes (Node.dir st true cs) newR ≤ ds - m.len :=
              hsum_eq ▸ hle
            rw [sumSizes_cons, hsp]
            dsimp only
            omega
        · have hul : unlinkPath (Node.dir st true cs) [name] = none := by
            simp [unlinkPath, unlinkTop, hfind, hdel]
          rw [hul] at hcall
          simp at hcall
      · rw [if_neg hu] at hcall
        simp at hcall
    · rw [Lib.evictLoop_exit keep _ ds (f :: rest) rAcc lAcc hgt] at hcall
      simp only [RRes.ok.injEq, Prod.mk.injEq] at hcall
      obtain ⟨h1, h2, _⟩ := hcall
      subst h1; subst h2
      refine ⟨[], by simp, by simp, ?_, by simp [sumSizes_nil]⟩
      simp [sumSizes_nil, Lib.get_size, hch]

/-- C6 as amended: the recomputed size never exceeds the old one, and the
decrease equals the sum of the sizes of the returned paths whose deletion
actually succeeded.  In the lib.rs variant every returned deletion did
succeed (a failure aborts the call), so there — proven here for every
readable directory root with distinct child names — a successful call
satisfies the claim's full equality: recomputing `get_size` afterwards
yields exactly the old value minus the total size of the returned paths,
and in particular never more than the old value.  (The info.rs variant can
return paths whose deletion failed, breaking the equality, see the
counterexample.) -/
theorem c6_amended (st : Bool) (cs : List (Bytes × Node)) (keep S : Nat)
    (removed : List FPath) (fs2 : Node) (log : List (FPath × Bool))
    (hnd : (cs.map Prod.fst).Nodup)
    (hsz : Lib.get_size (Node.dir st true cs) = RRes.ok S)
    (hcall : Lib.remove_old_files (Node.dir st true cs) keep =
      RRes.ok (removed, fs2, log)) :
    Lib.get_size fs2 = RRes.ok (S - sumSizes (Node.dir st true cs) removed) ∧
    sumSizes (Node.dir st true cs) removed ≤ S := by
  have hch : Lib.childrenSize cs = RRes.ok S := hsz
  simp only [Lib.remove_old_files, hsz, readDirNode] at hcall
  by_cases hlt : S < keep
  · rw [if_pos hlt] at hcall
    simp only [RRes.ok.injEq, Prod.mk.injEq] at hcall
    obtain ⟨h1, h2, _⟩ := hcall
    subst h1; subst h2
    exact ⟨by simp [sumSizes_nil, Lib.get_size, hch], by simp [sumSizes_nil]⟩
  · rw [if_neg hlt] at hcall
    have hmem : ∀ p, p ∈ (sortByMt (Node.dir st true cs)
        ((cs.filter fun e => isFileNode e.2).map fun e => [e.1])).reverse ↔
        p ∈ (cs.filter fun e => isFileNode e.2).map fun e => [e.1] := by
      intro p
      rw [List.mem_reverse]
      exact (List.perm_insertionSort _ _).mem_iff
    have hgood : ∀ p ∈ (sortByMt (Node.dir st true cs)
        ((cs.filter fun e => isFileNode e.2).map fun e => [e.1])).reverse,
        goodTop cs p := by
      intro p hp
      obtain ⟨e, he, hpe⟩ := List.mem_map.mp ((hmem p).mp hp)
      obtain ⟨hecs, hef⟩ := List.mem_filter.mp he
      obtain ⟨m, hm, hf⟩ := (isFileNode_iff e.2).mp hef
      exact ⟨e.1, e.2, m, hpe.symm,
        assocFind_of_mem_nodup cs e.1 e.2 hnd (Prod.mk.eta ▸ hecs), hm, hf⟩
    have hnodup : ((sortByMt (Node.dir st true cs)
        ((cs.filter fun e => isFileNode e.2).map fun e => [e.1])).reverse).Nodup := by
      rw [List.nodup_reverse]
      refine ((List.perm_insertionSort _ _).nodup_iff).mpr ?_
      have h1 : ((cs.filter fun e => isFileNode e.2).map Prod.fst).Nodup :=
        hnd.sublist ((List.filter_sublist cs).map Prod.fst)
      have h2 : (cs.filter fun e => isFileNode e.2).map (fun e => [e.1]) =
          ((cs.filter fun e => isFileNode e.2).map Prod.fst).map fun n => [n] := by
        rw [List.map_map]
        rfl
      rw [h2]
      exact h1.map fun a b h => by simpa using h
    obtain ⟨newR, hR, _, hgs, hle⟩ :=
      Lib.evictLoop_size keep _ st cs S [] [] removed fs2 log hcall hch hgood hnodup
    simp only [List.reverse_nil, List.nil_append] at hR
    subst hR
    exact ⟨hgs, hle⟩

/-- C6 as amended, witness: the theorem applied to the three-file scenario
directory at `keep = 150`, where the two returned files total 200 bytes
and the remaining directory measures 300 - 200 = 100. -/
theorem c6_amended_witness :
    Lib.get_size fs3After =
      RRes.ok (300 - sumSizes fs3 [[[99]], [[98]]]) ∧
    sumSizes fs3 [[[99]], [[98]]] ≤ 300 :=
  c6_amended true [([97], mkFile 100 1), ([98], mkFile 100 2), ([99], mkFile 100 3)]
    150 300 [[[99]], [[98]]] fs3After [([[99]], true), ([[98]], true)]
    (by decide) rfl rfl
